import Mathlib

/-!
Verification of the documentation retrieval engine in `devdocs_mcp_server.py`
(class `DevDocsClient`), as a shallow embedding in Lean.

Modelling conventions:
* Python strings are Lean `String`s. `str.lower()` is `lower` below
  (character-wise `Char.toLower`, faithful on the ASCII data the claims
  exercise); Python's substring test `a in b`, `startswith` and string
  comparison are modelled on the underlying character lists.
* Python's `sorted(xs, key=k)` is `List.mergeSort` with the boolean
  comparison `k a ≤ k b`; both are stable sorts, so the embedding
  preserves the ordering semantics of CPython's stable `sorted` exactly.
* Network fetches and the BeautifulSoup/pandoc toolchain are external
  effects; they enter the embedding as explicit oracle arguments
  (`Except`-valued functions, or outcome datatypes for the extraction
  strategies), and markup fragments are represented as already-parsed
  element trees.
-/

namespace DevDocs

/-- One index entry of a documentation set, as read from `index.json`:
the code uses `entry.get("name", "")`, `entry.get("path", "")`,
`entry.get("type", "")`, so a missing key is modelled as the empty string. -/
structure Entry where
  name : String
  path : String
  type : String
deriving Repr, DecidableEq

/-- Python `str.lower()` (ASCII case folding). -/
def lower (s : String) : String :=
  ⟨s.data.map Char.toLower⟩

/-- Substring containment on character lists: Python's `pat in hay`.
The empty pattern is contained in every string, as in Python. -/
def containsSub (pat : List Char) : List Char → Bool
  | [] => pat.isEmpty
  | c :: t => pat.isPrefixOf (c :: t) || containsSub pat t

/-- Python's `pat in s` on strings. -/
def strContains (s pat : String) : Bool :=
  containsSub pat.toList s.toList

/-- Boolean lexicographic comparison of character lists by code point:
Python's `str.__le__`. -/
def lexLE : List Char → List Char → Bool
  | [], _ => true
  | _ :: _, [] => false
  | a :: as, b :: bs =>
    if a < b then true
    else if b < a then false
    else lexLE as bs

/-- The sort key from `DevDocsClient.search_doc_entries` (lines 77-84):
`(0, name)` for an exact match of the folded name, `(1, name)` for a
prefix match, `(2, name)` otherwise. -/
def sort_key (ql : String) (e : Entry) : Nat × String :=
  let name := lower e.name
  if name = ql then (0, name)
  else if ql.data.isPrefixOf name.data then (1, name)
  else (2, name)

/-- Lexicographic comparison of sort keys, the order Python's tuple
comparison uses inside `sorted`. -/
def keyLE (a b : Nat × String) : Bool :=
  decide (a.1 < b.1) || (decide (a.1 = b.1) && lexLE a.2.data b.2.data)

/-- Entry comparison induced by `sort_key`. -/
def entryLE (ql : String) (a b : Entry) : Bool :=
  keyLE (sort_key ql a) (sort_key ql b)

/-- `DevDocsClient.search_doc_entries` (lines 63-86), given the `entries`
list of the fetched index: lowercase the query, keep entries whose
lowercased name contains it, stable-sort by `sort_key`, keep the top 20. -/
def search_doc_entries (entries : List Entry) (query : String) : List Entry :=
  let ql := lower query
  let kept := entries.filter (fun e => strContains (lower e.name) ql)
  (kept.mergeSort (entryLE ql)).take 20

/-- The relevance tier of an entry for a folded query, in the spec's own
terms: 0 for an exact match of the folded name, 1 for an entry whose
folded name starts with (but does not equal) the folded query,
2 for any other entry. -/
def tierOf (ql : String) (e : Entry) : Nat :=
  if lower e.name = ql then 0
  else if ql.data.isPrefixOf (lower e.name).data then 1
  else 2

theorem sort_key_fst (ql : String) (e : Entry) : (sort_key ql e).1 = tierOf ql e := by
  simp only [sort_key, tierOf]
  split <;> [rfl; skip]
  split <;> rfl

theorem sort_key_snd (ql : String) (e : Entry) : (sort_key ql e).2 = lower e.name := by
  simp only [sort_key]
  split <;> [rfl; skip]
  split <;> rfl

theorem lexLE_iff_not_lex (a b : List Char) :
    lexLE a b = true ↔ ¬ List.Lex (· < ·) b a := by
  induction a generalizing b with
  | nil =>
    refine iff_of_true rfl (fun h => ?_)
    exact List.Lex.not_nil_right _ _ h
  | cons x xs ih =>
    cases b with
    | nil =>
      refine iff_of_false (by simp [lexLE]) (fun h => ?_)
      exact h List.Lex.nil
    | cons y ys =>
      show (if x < y then true else if y < x then false else lexLE xs ys) = true ↔ _
      by_cases hxy : x < y
      · rw [if_pos hxy]
        refine iff_of_true rfl (fun h => ?_)
        cases h with
        | cons h2 => exact absurd hxy (lt_irrefl x)
        | rel h2 => exact absurd hxy (lt_asymm h2)
      · by_cases hyx : y < x
        · rw [if_neg hxy, if_pos hyx]
          exact iff_of_false (by simp) (fun h => h (List.Lex.rel hyx))
        · rw [if_neg hxy, if_neg hyx]
          have hxy' : x = y := le_antisymm (le_of_not_lt hyx) (le_of_not_lt hxy)
          subst hxy'
          rw [ih ys]
          constructor
          · intro h hl
            cases hl with
            | cons h2 => exact h h2
            | rel h2 => exact absurd h2 (lt_irrefl x)
          · exact fun h hl => h (List.Lex.cons hl)

theorem lexLE_iff_le (s t : String) : lexLE s.data t.data = true ↔ s ≤ t := by
  rw [lexLE_iff_not_lex, String.le_iff_toList_le, ← not_lt]
  rfl

theorem keyLE_iff (a b : Nat × String) :
    keyLE a b = true ↔ (a.1 < b.1 ∨ (a.1 = b.1 ∧ a.2 ≤ b.2)) := by
  simp only [keyLE, Bool.or_eq_true, Bool.and_eq_true, decide_eq_true_eq]
  rw [lexLE_iff_le]

theorem keyLE_refl (a : Nat × String) : keyLE a a = true := by
  rw [keyLE_iff]
  exact Or.inr ⟨rfl, le_refl _⟩

theorem keyLE_trans (a b c : Nat × String) (hab : keyLE a b) (hbc : keyLE b c) :
    keyLE a c := by
  rw [keyLE_iff] at *
  rcases hab with h1 | ⟨h1, h1'⟩ <;> rcases hbc with h2 | ⟨h2, h2'⟩
  · exact Or.inl (Nat.lt_trans h1 h2)
  · exact Or.inl (h2 ▸ h1)
  · exact Or.inl (h1 ▸ h2)
  · exact Or.inr ⟨h1.trans h2, le_trans h1' h2'⟩

theorem keyLE_total (a b : Nat × String) : keyLE a b || keyLE b a := by
  simp only [Bool.or_eq_true, keyLE_iff]
  rcases Nat.lt_trichotomy a.1 b.1 with h | h | h
  · exact Or.inl (Or.inl h)
  · rcases le_total a.2 b.2 with h2 | h2
    · exact Or.inl (Or.inr ⟨h, h2⟩)
    · exact Or.inr (Or.inr ⟨h.symm, h2⟩)
  · exact Or.inr (Or.inl h)

theorem entryLE_trans (ql : String) (a b c : Entry) (hab : entryLE ql a b)
    (hbc : entryLE ql b c) : entryLE ql a c :=
  keyLE_trans _ _ _ hab hbc

theorem entryLE_total (ql : String) (a b : Entry) : entryLE ql a b || entryLE ql b a :=
  keyLE_total _ _

/-- The empty pattern matches every string, as Python's `"" in s` does. -/
theorem strContains_empty (s : String) : strContains s "" = true := by
  unfold strContains
  cases s.toList <;> simp [containsSub, List.isPrefixOf]

/-- C1: For a fixed index and query, `search_doc_entries` returns the same
ordered sequence on every call (it is a pure function of the index and the
query); every returned entry's lowercased name contains the lowercased
query; and the output is ordered by tier — entries whose lowercased name
equals the lowercased query (tier 0) precede entries whose lowercased name
starts with but does not equal it (tier 1), which precede all other
substring matches (tier 2) — with ties within one tier ordered by
lowercased name, lexicographic ascending. -/
theorem search_doc_entries_ranking (entries : List Entry) (query : String) :
    search_doc_entries entries query = search_doc_entries entries query ∧
    (∀ e ∈ search_doc_entries entries query,
      strContains (lower e.name) (lower query) = true) ∧
    (search_doc_entries entries query).Pairwise (fun a b =>
      tierOf (lower query) a < tierOf (lower query) b ∨
        (tierOf (lower query) a = tierOf (lower query) b ∧
          lower a.name ≤ lower b.name)) := by
  refine ⟨rfl, ?_, ?_⟩
  · intro e he
    simp only [search_doc_entries] at he
    have h1 := List.mem_of_mem_take he
    rw [List.mem_mergeSort] at h1
    exact (List.mem_filter.mp h1).2
  · have hs := List.sorted_mergeSort
      (fun a b c hab hbc => entryLE_trans (lower query) a b c hab hbc)
      (fun a b => entryLE_total (lower query) a b)
      (entries.filter (fun e => strContains (lower e.name) (lower query)))
    have ht : search_doc_entries entries query =
        ((entries.filter (fun e => strContains (lower e.name) (lower query))).mergeSort
          (entryLE (lower query))).take 20 := rfl
    rw [ht]
    refine ((hs.sublist (List.take_sublist _ _)).imp ?_)
    intro a b h
    have h2 := (keyLE_iff _ _).mp h
    rwa [sort_key_fst, sort_key_fst, sort_key_snd, sort_key_snd] at h2

/-- C5: With the empty query, the filter keeps every entry of the index,
so the result is the first 20 entries after ranking (in particular its
length is `min 20 entries.length`, not an error and not always empty). -/
theorem search_doc_entries_empty_query (entries : List Entry) :
    entries.filter (fun e => strContains (lower e.name) (lower "")) = entries ∧
    search_doc_entries entries "" =
      (entries.mergeSort (entryLE (lower ""))).take 20 ∧
    (search_doc_entries entries "").length = min 20 entries.length := by
  have hf : entries.filter (fun e => strContains (lower e.name) (lower "")) = entries :=
    List.filter_eq_self.mpr (fun e _ => strContains_empty (lower e.name))
  refine ⟨hf, ?_, ?_⟩
  · show ((entries.filter (fun e => strContains (lower e.name) (lower ""))).mergeSort
        (entryLE (lower ""))).take 20 = _
    rw [hf]
  · show (((entries.filter (fun e => strContains (lower e.name) (lower ""))).mergeSort
        (entryLE (lower ""))).take 20).length = _
    rw [hf, List.length_take, List.length_mergeSort]

/-- C6: The search result never has more than 20 entries, whatever the
index and the query (the code truncates with `[:20]` after sorting). -/
theorem search_doc_entries_length_le (entries : List Entry) (query : String) :
    (search_doc_entries entries query).length ≤ 20 := by
  show (List.take 20 _).length ≤ 20
  rw [List.length_take]
  exact Nat.min_le_left _ _

/-- C10: The sort in `search_doc_entries` is stable: two matching entries
with the same sort key (same tier, same lowercased name) keep, in the
sorted sequence, the relative order they have in the filtered index; the
returned list is the 20-entry prefix of that sorted sequence, so the
output ordering is a function of the index sequence and the query alone. -/
theorem search_doc_entries_stable (entries : List Entry) (query : String) (a b : Entry)
    (hkey : sort_key (lower query) a = sort_key (lower query) b)
    (hsub : List.Sublist [a, b]
      (entries.filter (fun e => strContains (lower e.name) (lower query)))) :
    List.Sublist [a, b]
      ((entries.filter (fun e => strContains (lower e.name) (lower query))).mergeSort
        (entryLE (lower query))) ∧
    search_doc_entries entries query =
      ((entries.filter (fun e => strContains (lower e.name) (lower query))).mergeSort
        (entryLE (lower query))).take 20 := by
  refine ⟨?_, rfl⟩
  have hab : entryLE (lower query) a b = true := by
    unfold entryLE
    rw [hkey]
    exact keyLE_refl _
  exact List.pair_sublist_mergeSort
    (fun x y z hxy hyz => entryLE_trans _ x y z hxy hyz)
    (fun x y => entryLE_total _ x y) hab hsub

/-- Witness for C10 at a concrete index: `"Ab"` and `"ab"` share the sort
key `(1, "ab")` for query `"a"` and keep their index order. -/
theorem search_doc_entries_stable_witness :
    List.Sublist [Entry.mk "Ab" "p1" "", Entry.mk "ab" "p2" ""]
      (([Entry.mk "Ab" "p1" "", Entry.mk "zz" "q" "", Entry.mk "ab" "p2" ""].filter
        (fun e => strContains (lower e.name) (lower "a"))).mergeSort
        (entryLE (lower "a"))) ∧
    search_doc_entries
        [Entry.mk "Ab" "p1" "", Entry.mk "zz" "q" "", Entry.mk "ab" "p2" ""] "a" =
      (([Entry.mk "Ab" "p1" "", Entry.mk "zz" "q" "", Entry.mk "ab" "p2" ""].filter
        (fun e => strContains (lower e.name) (lower "a"))).mergeSort
        (entryLE (lower "a"))).take 20 :=
  search_doc_entries_stable
    [Entry.mk "Ab" "p1" "", Entry.mk "zz" "q" "", Entry.mk "ab" "p2" ""] "a"
    (Entry.mk "Ab" "p1" "") (Entry.mk "ab" "p2" "") (by decide) (by decide)

/-! ## Page aggregation (`list_all_docset_pages`, lines 172-208) -/

/-- A section heading as built by `extract_page_info` (lines 156-165). -/
structure Heading where
  text : String
  level : Nat
  id : String
deriving Repr, DecidableEq

/-- The result of `extract_page_info` (lines 140-170). -/
structure PageInfo where
  title : Option String
  sections : List Heading
deriving Repr, DecidableEq

/-- One page dict of `list_all_docset_pages`: the five keys always present
(lines 187-193), plus the optional `error` key added only at line 204. -/
structure Page where
  name : String
  path : String
  type : String
  title : Option String
  sections : List Heading
  error : Option String
deriving Repr, DecidableEq

/-- The body of the entry loop of `list_all_docset_pages` (lines 182-206).
`fetchInfo` is the oracle for `extract_page_info(await get_doc_content(slug,
path))`: `.ok info` when the content fetch and the page-info derivation both
succeed, `.error msg` (with `msg = str(e)`) when either raises. -/
def processEntry (include_sections : Bool) (fetchInfo : String → Except String PageInfo)
    (e : Entry) : Page :=
  if include_sections ∧ e.path ≠ "" then
    match fetchInfo e.path with
    | .ok info =>
      { name := e.name, path := e.path, type := e.type,
        title := info.title, sections := info.sections, error := none }
    | .error msg =>
      { name := e.name, path := e.path, type := e.type,
        title := none, sections := [],
        error := some ("Could not fetch content: " ++ msg) }
  else
    { name := e.name, path := e.path, type := e.type,
      title := none, sections := [], error := none }

/-- `list_all_docset_pages` (lines 172-208) given the entries of the fetched
index: the `pages` accumulator loop, one appended page per entry. -/
def list_all_docset_pages (entries : List Entry) (include_sections : Bool)
    (fetchInfo : String → Except String PageInfo) : List Page :=
  entries.foldl (fun pages e => pages ++ [processEntry include_sections fetchInfo e]) []

theorem foldl_append_eq_map {α β : Type} (g : α → β) (l : List α) (init : List β) :
    l.foldl (fun acc e => acc ++ [g e]) init = init ++ l.map g := by
  induction l generalizing init with
  | nil => simp
  | cons x xs ih => simp [ih]

theorem list_all_docset_pages_eq_map (entries : List Entry) (include_sections : Bool)
    (fetchInfo : String → Except String PageInfo) :
    list_all_docset_pages entries include_sections fetchInfo =
      entries.map (processEntry include_sections fetchInfo) := by
  unfold list_all_docset_pages
  rw [foldl_append_eq_map]
  rfl

/-- C2: With `include_sections = True`, the listing has exactly one page per
entry, in index order; the page at position `i` is a function of entry `i`
alone: for a non-empty path it carries the fetched title and sections and no
error when the oracle succeeds, and carries `title = None`, empty sections
and the `"Could not fetch content: ..."` error string when the fetch or
derivation raises — so no single page failure aborts or alters the rest. -/
theorem list_all_docset_pages_isolating (entries : List Entry)
    (fetchInfo : String → Except String PageInfo) :
    (list_all_docset_pages entries true fetchInfo).length = entries.length ∧
    ∀ i, ∀ h : i < entries.length,
      (list_all_docset_pages entries true fetchInfo)[i]? =
        some (if (entries.get ⟨i, h⟩).path = "" then
            { name := (entries.get ⟨i, h⟩).name, path := (entries.get ⟨i, h⟩).path,
              type := (entries.get ⟨i, h⟩).type, title := none, sections := [],
              error := none }
          else
            match fetchInfo (entries.get ⟨i, h⟩).path with
            | .ok info =>
              { name := (entries.get ⟨i, h⟩).name, path := (entries.get ⟨i, h⟩).path,
                type := (entries.get ⟨i, h⟩).type, title := info.title,
                sections := info.sections, error := none }
            | .error msg =>
              { name := (entries.get ⟨i, h⟩).name, path := (entries.get ⟨i, h⟩).path,
                type := (entries.get ⟨i, h⟩).type, title := none, sections := [],
                error := some ("Could not fetch content: " ++ msg) }) := by
  rw [list_all_docset_pages_eq_map]
  refine ⟨List.length_map _ _, ?_⟩
  intro i h
  rw [List.getElem?_map, List.getElem?_eq_getElem (by simpa using h)]
  simp only [Option.map_some', Option.some.injEq, List.get_eq_getElem]
  by_cases hp : entries[i].path = ""
  · simp [processEntry, hp]
  · simp only [processEntry, hp, if_neg, true_and, if_false]
    cases hf : fetchInfo entries[i].path <;> simp [hf, hp]

/-- Witness for C2: index `[A, B, C]` where fetching `B`'s path raises;
the listing still has three pages and `B`'s page carries the error. -/
theorem list_all_docset_pages_isolating_witness :
    (1 : Nat) < 3 ∧
    (list_all_docset_pages
        [Entry.mk "A" "pa" "", Entry.mk "B" "pb" "", Entry.mk "C" "pc" ""] true
        (fun p => if p = "pb" then Except.error "boom"
          else Except.ok ⟨some "T", [⟨"S", 2, "s"⟩]⟩))[1]? =
      some (Page.mk "B" "pb" "" none [] (some "Could not fetch content: boom")) := by
  have h := (list_all_docset_pages_isolating
    [Entry.mk "A" "pa" "", Entry.mk "B" "pb" "", Entry.mk "C" "pc" ""]
    (fun p => if p = "pb" then Except.error "boom"
      else Except.ok ⟨some "T", [⟨"S", 2, "s"⟩]⟩)).2 1 (by decide)
  refine ⟨by decide, ?_⟩
  rw [h]
  rfl

/-- C9: every page of the listing keeps the entry's `name`/`path`/`type` and
has `title`/`sections` present (defaulted to `None`/`[]`); a page has an
`error` only when its entry's path is non-empty and `include_sections` is
true; an entry with an empty or missing path yields the default page with no
error and triggers no content fetch (the page is independent of the fetch
oracle); and `title`/`sections` deviate from the defaults only when the
fetch succeeded, in which case there is no error. -/
theorem list_all_docset_pages_page_invariants (entries : List Entry)
    (include_sections : Bool) (fetchInfo altFetch : String → Except String PageInfo)
    (i : Nat) (h : i < entries.length) :
    ∃ p, (list_all_docset_pages entries include_sections fetchInfo)[i]? = some p ∧
      p.name = (entries.get ⟨i, h⟩).name ∧
      p.path = (entries.get ⟨i, h⟩).path ∧
      p.type = (entries.get ⟨i, h⟩).type ∧
      (p.error ≠ none → (entries.get ⟨i, h⟩).path ≠ "" ∧ include_sections = true) ∧
      ((entries.get ⟨i, h⟩).path = "" →
        p = Page.mk (entries.get ⟨i, h⟩).name "" (entries.get ⟨i, h⟩).type none [] none ∧
        (list_all_docset_pages entries include_sections altFetch)[i]? = some p) ∧
      ((p.title ≠ none ∨ p.sections ≠ []) →
        ∃ info, fetchInfo (entries.get ⟨i, h⟩).path = Except.ok info ∧
          p.title = info.title ∧ p.sections = info.sections ∧ p.error = none) := by
  rw [list_all_docset_pages_eq_map, List.getElem?_map,
    List.getElem?_eq_getElem (by simpa using h)]
  refine ⟨processEntry include_sections fetchInfo entries[i], rfl, ?_⟩
  have hget : entries.get ⟨i, h⟩ = entries[i] := rfl
  rw [hget]
  by_cases hcond : include_sections = true ∧ entries[i].path ≠ ""
  · have hproc : processEntry include_sections fetchInfo entries[i] =
        match fetchInfo entries[i].path with
        | .ok info =>
          { name := entries[i].name, path := entries[i].path, type := entries[i].type,
            title := info.title, sections := info.sections, error := none }
        | .error msg =>
          { name := entries[i].name, path := entries[i].path, type := entries[i].type,
            title := none, sections := [],
            error := some ("Could not fetch content: " ++ msg) } := by
      unfold processEntry
      rw [if_pos ⟨hcond.1, hcond.2⟩]
    cases hf : fetchInfo entries[i].path with
    | ok info =>
      rw [hproc, hf]
      refine ⟨rfl, rfl, rfl, fun _ => ⟨hcond.2, hcond.1⟩, fun hp => absurd hp hcond.2,
        fun _ => ⟨info, rfl, rfl, rfl, rfl⟩⟩
    | error msg =>
      rw [hproc, hf]
      refine ⟨rfl, rfl, rfl, fun _ => ⟨hcond.2, hcond.1⟩, fun hp => absurd hp hcond.2,
        fun hts => ?_⟩
      rcases hts with ht | hs
      · exact absurd rfl ht
      · exact absurd rfl hs
  · have hproc : ∀ g : String → Except String PageInfo,
        processEntry include_sections g entries[i] =
          { name := entries[i].name, path := entries[i].path, type := entries[i].type,
            title := none, sections := [], error := none } := by
      intro g
      unfold processEntry
      rw [if_neg (fun hc => hcond ⟨hc.1, hc.2⟩)]
    rw [hproc fetchInfo]
    refine ⟨rfl, rfl, rfl, fun he => absurd rfl he, fun hp => ?_, fun hts => ?_⟩
    · refine ⟨by simp [hp], ?_⟩
      rw [list_all_docset_pages_eq_map, List.getElem?_map,
        List.getElem?_eq_getElem (by simpa using h)]
      simp [hproc altFetch, hp]
    · rcases hts with ht | hs
      · exact absurd rfl ht
      · exact absurd rfl hs

/-- Witness for C9: a single entry with an empty path yields the default
page, independently of the (diverging) fetch oracles. -/
theorem list_all_docset_pages_page_invariants_witness :
    (list_all_docset_pages [Entry.mk "A" "" "t"] true
        (fun _ => Except.error "never called"))[0]? =
      some (Page.mk "A" "" "t" none [] none) ∧
    (list_all_docset_pages [Entry.mk "A" "" "t"] true
        (fun _ => Except.ok ⟨some "X", []⟩))[0]? =
      some (Page.mk "A" "" "t" none [] none) := by
  obtain ⟨p, hp, -, -, -, -, hemp, -⟩ :=
    list_all_docset_pages_page_invariants [Entry.mk "A" "" "t"] true
      (fun _ => Except.error "never called") (fun _ => Except.ok ⟨some "X", []⟩)
      0 (by decide)
  obtain ⟨hpe, halt⟩ := hemp rfl
  subst hpe
  exact ⟨hp, halt⟩

/-! ## Catalog memoization (`get_available_docs`, lines 49-55) -/

/-- One docset descriptor from the `docs.json` catalog. -/
structure DocSetMeta where
  name : String
  slug : String
  version : String
deriving Repr, DecidableEq

/-- The parsed catalog of documentation sets. -/
abbrev Catalog : Type := List DocSetMeta

/-- Result of one `get_available_docs` call: the returned or raised value,
the `_docs_cache` field after the call, and the number of network fetches
the call performed. -/
structure GetDocsOutcome where
  result : Except String Catalog
  cache : Option Catalog
  fetches : Nat

/-- `DevDocsClient.get_available_docs` (lines 49-55). `docs_cache` is the
`_docs_cache` field before the call; `net` is the oracle for the composite
`GET {base}/docs.json` + `raise_for_status()` + `.json()`: `.ok cat` when
the request succeeds with a success status and a parsable body, `.error e`
when any of those raises. The cache is written only after all three
succeed. -/
def get_available_docs (docs_cache : Option Catalog) (net : Except String Catalog) :
    GetDocsOutcome :=
  match docs_cache with
  | some c => ⟨.ok c, some c, 0⟩
  | none =>
    match net with
    | .ok c => ⟨.ok c, some c, 1⟩
    | .error e => ⟨.error e, none, 1⟩

/-- C4: a successful first call parses and memoizes the catalog and any
later call returns the memoized value with zero further fetches (two
sequential calls make exactly one fetch); a failed call returns the error
and leaves the cache unset, so the next call fetches the network again; and
after any call the cache is either unchanged or holds exactly the
fully-parsed catalog of a successful fetch — never a partial value. -/
theorem get_available_docs_memoization (c : Catalog) (e : String)
    (net₂ : Except String Catalog) (docs_cache : Option Catalog)
    (net : Except String Catalog) :
    get_available_docs none (Except.ok c) = ⟨Except.ok c, some c, 1⟩ ∧
    get_available_docs (some c) net₂ = ⟨Except.ok c, some c, 0⟩ ∧
    (get_available_docs none (Except.ok c)).fetches +
      (get_available_docs (get_available_docs none (Except.ok c)).cache net₂).fetches
      = 1 ∧
    get_available_docs none (Except.error e) = ⟨Except.error e, none, 1⟩ ∧
    (get_available_docs (get_available_docs none (Except.error e)).cache net₂).fetches
      = 1 ∧
    ((get_available_docs docs_cache net).cache = docs_cache ∨
      ∃ cat, net = Except.ok cat ∧ (get_available_docs docs_cache net).cache = some cat) := by
  refine ⟨rfl, rfl, rfl, rfl, ?_, ?_⟩
  · cases net₂ <;> rfl
  · cases docs_cache with
    | some c₂ => exact Or.inl rfl
    | none =>
      cases net with
      | ok cat => exact Or.inr ⟨cat, rfl, rfl⟩
      | error e₂ => exact Or.inl rfl

/-! ## Markup fragments and the extraction pipeline
(`extract_text_content`, lines 96-138; `extract_page_info`, lines 140-170)

A fragment is the element tree BeautifulSoup produces for the raw markup:
text nodes and elements with a tag, an `id` attribute (the code's
`heading.get("id", "")`, so a missing attribute is the empty string) and
children. -/

inductive HNode where
  | text (s : String)
  | elem (tag : String) (id : String) (children : List HNode)
deriving Repr

/-- Python `str.strip()` on a character list (ASCII whitespace). -/
def trimChars (l : List Char) : List Char :=
  ((l.dropWhile Char.isWhitespace).reverse.dropWhile Char.isWhitespace).reverse

/-- The `for script in soup(["script", "style"]): script.decompose()` pass
(lines 129-130): remove every script/style element and its whole subtree. -/
def stripScriptStyle : List HNode → List HNode
  | [] => []
  | .text s :: rest => .text s :: stripScriptStyle rest
  | .elem t i cs :: rest =>
    if t == "script" || t == "style" then stripScriptStyle rest
    else .elem t i (stripScriptStyle cs) :: stripScriptStyle rest

/-- `soup.get_text()` (line 133): concatenation of all text nodes in
document order. -/
def getText : List HNode → List Char
  | [] => []
  | .text s :: rest => s.data ++ getText rest
  | .elem _ _ cs :: rest => getText cs ++ getText rest

/-- Python `str.splitlines()` (line 134), accumulator-passing: splits at
`\r\n`, `\n` and `\r`, with no entry for a trailing terminator. -/
def splitLinesAux : List Char → List Char → List (List Char)
  | [], [] => []
  | acc, [] => [acc.reverse]
  | acc, '\r' :: '\n' :: rest => acc.reverse :: splitLinesAux [] rest
  | acc, '\n' :: rest => acc.reverse :: splitLinesAux [] rest
  | acc, '\r' :: rest => acc.reverse :: splitLinesAux [] rest
  | acc, c :: rest => splitLinesAux (c :: acc) rest

/-- Python `line.split("  ")` (line 135), accumulator-passing. -/
def splitTwoSpace : List Char → List Char → List (List Char)
  | acc, ' ' :: ' ' :: rest => acc.reverse :: splitTwoSpace [] rest
  | acc, c :: rest => splitTwoSpace (c :: acc) rest
  | acc, [] => [acc.reverse]

/-- The whitespace cleanup of the naive fallback (lines 134-136): strip
each line, split lines at double spaces, strip the pieces, and join the
non-empty pieces with single spaces. -/
def cleanup_text (t : List Char) : String :=
  let lines := (splitLinesAux [] t).map trimChars
  let chunks := (lines.map (fun line => (splitTwoSpace [] line).map trimChars)).flatten
  ⟨List.intercalate [' '] (chunks.filter (fun c => !c.isEmpty))⟩

/-- The terminal naive strategy of `extract_text_content` (lines 125-138). -/
def naive_extract (frag : List HNode) : String :=
  cleanup_text (getText (stripScriptStyle frag))

/-- Outcome of strategy 1 (lines 98-107): importing
`scripts.clean_docs.DocsCleaner` and calling `clean_html`.
`importError` is the only exception the `except ImportError` clause
swallows; any other exception from the block is `raised`. -/
inductive CleanerOutcome where
  | importError
  | ok (markdown : String)
  | raised (e : String)

/-- Outcome of strategy 2 (lines 110-123): `subprocess.run(["pandoc", ...],
check=True, timeout=5)`. The `except` clause catches exactly
`CalledProcessError`, `FileNotFoundError` and `TimeoutExpired`; any other
exception (e.g. `PermissionError`) is `otherError`. -/
inductive SubprocOutcome where
  | ok (stdout : String)
  | calledProcessError (e : String)
  | fileNotFound (e : String)
  | timeoutExpired (e : String)
  | otherError (e : String)

/-- Strategies 2 and 3 of `extract_text_content` (lines 109-138). -/
def extract_fallback (s2 : SubprocOutcome) (frag : List HNode) : Except String String :=
  match s2 with
  | .ok out => if out ≠ "" then .ok out else .ok (naive_extract frag)
  | .calledProcessError _ => .ok (naive_extract frag)
  | .fileNotFound _ => .ok (naive_extract frag)
  | .timeoutExpired _ => .ok (naive_extract frag)
  | .otherError e => .error e

/-- `DevDocsClient.extract_text_content` (lines 96-138), with the two
external strategies given by their outcome oracles: `.ok out` is a normal
return, `.error e` an uncaught exception propagating to the caller. -/
def extract_text_content (s1 : CleanerOutcome) (s2 : SubprocOutcome)
    (frag : List HNode) : Except String String :=
  match s1 with
  | .raised e => .error e
  | .ok md =>
    if md ≠ "" ∧ trimChars md.data ≠ [] then .ok md
    else extract_fallback s2 frag
  | .importError => extract_fallback s2 frag

/-- `true` iff the call returned normally instead of raising. -/
def isOk {ε α : Type} : Except ε α → Bool
  | .ok _ => true
  | .error _ => false

/-- C3 counterexample: an exception outside the handled kinds is not a
fall-through trigger — it propagates out of `extract_text_content`. A
subprocess failure other than tool-missing/non-zero-exit/timeout (here a
`PermissionError`) escapes, and so does a non-`ImportError` failure of the
structured-cleaner strategy. -/
theorem extract_text_content_raises_on_unhandled :
    extract_text_content CleanerOutcome.importError
        (SubprocOutcome.otherError "PermissionError: [Errno 13] Permission denied")
        [HNode.text "x"] =
      Except.error "PermissionError: [Errno 13] Permission denied" ∧
    extract_text_content (CleanerOutcome.raised "OSError: boom")
        (SubprocOutcome.fileNotFound "pandoc") [HNode.text "x"] =
      Except.error "OSError: boom" :=
  ⟨rfl, rfl⟩

/-- C3 amended: `extract_text_content` returns a string and never raises
provided the structured-cleaner strategy either is unavailable
(`ImportError`) or returns normally, and the subprocess strategy either
runs or fails only in the handled ways (tool missing, non-zero exit,
timeout); unavailability and those failures only cause fall-through, and
the terminal naive strategy always produces a result. -/
theorem extract_text_content_ok_of_handled (s1 : CleanerOutcome)
    (s2 : SubprocOutcome) (frag : List HNode)
    (h1 : ∀ e, s1 ≠ CleanerOutcome.raised e)
    (h2 : ∀ e, s2 ≠ SubprocOutcome.otherError e) :
    isOk (extract_text_content s1 s2 frag) = true := by
  have hfb : isOk (extract_fallback s2 frag) = true := by
    cases s2 with
    | ok out =>
      simp only [extract_fallback]
      split <;> rfl
    | calledProcessError e => rfl
    | fileNotFound e => rfl
    | timeoutExpired e => rfl
    | otherError e => exact absurd rfl (h2 e)
  cases s1 with
  | importError => exact hfb
  | ok md =>
    simp only [extract_text_content]
    split <;> [rfl; exact hfb]
  | raised e => exact absurd rfl (h1 e)

/-- Witness for the amended C3 at a concrete input: cleaner unavailable,
pandoc missing, naive fallback succeeds. -/
theorem extract_text_content_ok_of_handled_witness :
    isOk (extract_text_content CleanerOutcome.importError
      (SubprocOutcome.fileNotFound "pandoc") [HNode.text "hi"]) = true :=
  extract_text_content_ok_of_handled CleanerOutcome.importError
    (SubprocOutcome.fileNotFound "pandoc") [HNode.text "hi"]
    (fun e h => nomatch h) (fun e h => nomatch h)

/-- The fragment of the C7 example:
`<script>x()</script><style>y{}</style><p>Hello</p>`. -/
def frag7 : List HNode :=
  [HNode.elem "script" "" [HNode.text "x()"],
    HNode.elem "style" "" [HNode.text "y\x7b\x7d"],
    HNode.elem "p" "" [HNode.text "Hello"]]

/-- C7: the naive fallback removes script/style subtrees before extracting
text — prepending any script and any style element to any fragment leaves
its output unchanged — and on the example fragment the result is exactly
`"Hello"`: it contains `Hello` and neither the script content `x()` nor the
style content `y{}`; runs of whitespace between retained fragments are
collapsed to single spaces. -/
theorem naive_extract_drops_script_style :
    (∀ (sid stid s t : String) (frag : List HNode),
      naive_extract (HNode.elem "script" sid [HNode.text s] ::
          HNode.elem "style" stid [HNode.text t] :: frag) =
        naive_extract frag) ∧
    naive_extract frag7 = "Hello" ∧
    strContains (naive_extract frag7) "x()" = false ∧
    strContains (naive_extract frag7) "y\x7b\x7d" = false ∧
    strContains (naive_extract frag7) "Hello" = true ∧
    naive_extract [HNode.elem "p" "" [HNode.text "  Hello   world \n  again"]] =
      "Hello world again" := by
  have h7 : naive_extract frag7 = "Hello" := by
    simp [naive_extract, frag7, stripScriptStyle, getText, cleanup_text, splitLinesAux,
      splitTwoSpace, trimChars, List.dropWhile, List.intercalate, String.ext_iff]
  refine ⟨?_, h7, ?_, ?_, ?_, ?_⟩
  · intro sid stid s t frag
    simp [naive_extract, stripScriptStyle]
  · rw [h7]; decide
  · rw [h7]; decide
  · rw [h7]; decide
  · simp [naive_extract, stripScriptStyle, getText, cleanup_text, splitLinesAux,
      splitTwoSpace, trimChars, List.dropWhile, List.intercalate, String.ext_iff]

/-! ## Page info sections (`extract_page_info`, lines 154-165) -/

/-- The heading tags `soup.find_all(["h2", "h3", "h4", "h5", "h6"])`
looks for (line 156): level-1 headings are excluded. -/
def isHeadingTag (t : String) : Bool :=
  t == "h2" || t == "h3" || t == "h4" || t == "h5" || t == "h6"

/-- `soup.find_all([...])`: every matching element, in document order
(an element is listed before its descendants). -/
def findHeadings : List HNode → List HNode
  | [] => []
  | .text _ :: rest => findHeadings rest
  | .elem t i cs :: rest =>
    (if isHeadingTag t then [HNode.elem t i cs] else []) ++
      findHeadings cs ++ findHeadings rest

/-- `get_text(strip=True)` (line 157): concatenation of each text node's
stripped text, in document order. -/
def getTextStrip : List HNode → List Char
  | [] => []
  | .text s :: rest => trimChars s.data ++ getTextStrip rest
  | .elem _ _ cs :: rest => getTextStrip cs ++ getTextStrip rest

/-- `int(heading.name[1])` (line 159): the digit after the `h`. -/
def levelOfTag (t : String) : Nat :=
  match t.data with
  | _ :: c :: _ => c.toNat - '0'.toNat
  | _ => 0

/-- What one heading element contributes to `sections` (lines 157-165):
its stripped text, its level and its `id`, or nothing when the stripped
text is empty. -/
def headingRecordOf : HNode → Option Heading
  | .text _ => none
  | .elem t i cs =>
    let text : String := ⟨getTextStrip cs⟩
    if text = "" then none else some ⟨text, levelOfTag t, i⟩

/-- One iteration of the `sections` loop (lines 157-165): append the
heading's record, or keep `acc` when the stripped text is empty. -/
def sectionAppend (acc : List Heading) (n : HNode) : List Heading :=
  match headingRecordOf n with
  | some hd => acc ++ [hd]
  | none => acc

/-- The `sections` loop of `extract_page_info` (lines 155-165). -/
def extract_page_info_sections (frag : List HNode) : List Heading :=
  (findHeadings frag).foldl sectionAppend []

theorem foldl_sectionAppend_eq_filterMap (l : List HNode) (init : List Heading) :
    l.foldl sectionAppend init = init ++ l.filterMap headingRecordOf := by
  induction l generalizing init with
  | nil => simp
  | cons x xs ih => cases hg : headingRecordOf x <;> simp [sectionAppend, hg, ih]

theorem findHeadings_shape (frag : List HNode) :
    ∀ n ∈ findHeadings frag, ∃ t i cs, n = HNode.elem t i cs ∧ isHeadingTag t = true := by
  induction frag using findHeadings.induct with
  | case1 => intro n hn; simp [findHeadings] at hn
  | case2 s rest ih => intro n hn; rw [findHeadings] at hn; exact ih n hn
  | case3 t i cs rest ih1 ih2 =>
    intro n hn
    rw [findHeadings] at hn
    rcases List.mem_append.mp hn with hn1 | hn2
    · rcases List.mem_append.mp hn1 with hn0 | hncs
      · by_cases ht : isHeadingTag t
        · rw [if_pos ht] at hn0
          rcases List.mem_singleton.mp hn0 with rfl
          exact ⟨t, i, cs, rfl, ht⟩
        · rw [if_neg ht] at hn0
          simp at hn0
      · exact ih1 n hncs
    · exact ih2 n hn2

/-- The fragment of the C8 example: `h1("Intro")`, `h2("A")`, `h3("A.1")`
(nested inside a `section` element), `h2("B")`. -/
def fragC8 : List HNode :=
  [HNode.elem "h1" "" [HNode.text "Intro"],
    HNode.elem "h2" "" [HNode.text "A"],
    HNode.elem "section" "" [HNode.elem "h3" "" [HNode.text "A.1"]],
    HNode.elem "h2" "" [HNode.text "B"]]

/-- A fragment with a whitespace-only heading, and a duplicated heading
carrying an `id`. -/
def fragC8b : List HNode :=
  [HNode.elem "h2" "" [HNode.text "   "],
    HNode.elem "h3" "x1" [HNode.text " C "],
    HNode.elem "h3" "x1" [HNode.text " C "]]

/-- C8: the sections are exactly the records of the `h2`-`h6` elements of
the fragment in document order whose stripped text is non-empty — so every
section's level is between 2 and 6 (level-1 headings are excluded), there
is no deduplication and no nesting reconstruction. On the example
`h1("Intro"), h2("A"), h3("A.1"), h2("B")` the sections are
`[{A,2},{A.1,3},{B,2}]`; a whitespace-only heading is skipped and a
repeated heading is recorded twice with its `id`. -/
theorem extract_page_info_sections_spec :
    (∀ frag, extract_page_info_sections frag =
      (findHeadings frag).filterMap headingRecordOf) ∧
    (∀ frag, ∀ s ∈ extract_page_info_sections frag, 2 ≤ s.level ∧ s.level ≤ 6) ∧
    extract_page_info_sections fragC8 =
      [Heading.mk "A" 2 "", Heading.mk "A.1" 3 "", Heading.mk "B" 2 ""] ∧
    extract_page_info_sections fragC8b =
      [Heading.mk "C" 3 "x1", Heading.mk "C" 3 "x1"] := by
  have h1 : ∀ frag, extract_page_info_sections frag =
      (findHeadings frag).filterMap headingRecordOf := by
    intro frag
    unfold extract_page_info_sections
    exact (foldl_sectionAppend_eq_filterMap (findHeadings frag) []).trans
      (List.nil_append _)
  refine ⟨h1, ?_, ?_, ?_⟩
  · intro frag s hs
    rw [h1] at hs
    obtain ⟨n, hn, hrec⟩ := List.mem_filterMap.mp hs
    obtain ⟨t, i, cs, rfl, ht⟩ := findHeadings_shape frag n hn
    simp only [headingRecordOf] at hrec
    by_cases htext : (⟨getTextStrip cs⟩ : String) = ""
    · rw [if_pos htext] at hrec
      exact absurd hrec (Option.noConfusion)
    · rw [if_neg htext] at hrec
      injection hrec with hinj
      subst hinj
      simp only [isHeadingTag, Bool.or_eq_true, beq_iff_eq] at ht
      rcases ht with (((rfl | rfl) | rfl) | rfl) | rfl
      · exact ⟨(by decide : (2 : Nat) ≤ 2), (by decide : (2 : Nat) ≤ 6)⟩
      · exact ⟨(by decide : (2 : Nat) ≤ 3), (by decide : (3 : Nat) ≤ 6)⟩
      · exact ⟨(by decide : (2 : Nat) ≤ 4), (by decide : (4 : Nat) ≤ 6)⟩
      · exact ⟨(by decide : (2 : Nat) ≤ 5), (by decide : (5 : Nat) ≤ 6)⟩
      · exact ⟨(by decide : (2 : Nat) ≤ 6), (by decide : (6 : Nat) ≤ 6)⟩
  · simp [h1, fragC8, findHeadings, isHeadingTag, headingRecordOf, getTextStrip,
      trimChars, levelOfTag, List.dropWhile, String.ext_iff]
  · simp [h1, fragC8b, findHeadings, isHeadingTag, headingRecordOf, getTextStrip,
      trimChars, levelOfTag, List.dropWhile, String.ext_iff]

/-- Witness for C8: the section `{A, 2}` of the example fragment is within
levels 2-6. -/
theorem extract_page_info_sections_spec_witness :
    2 ≤ (Heading.mk "A" 2 "").level ∧ (Heading.mk "A" 2 "").level ≤ 6 :=
  extract_page_info_sections_spec.2.1 fragC8 (Heading.mk "A" 2 "")
    (by rw [extract_page_info_sections_spec.2.2.1]; decide)

end DevDocs
